import Mathlib

/-!
Shallow embedding of the `pulldown-latexmml` parser core
(`src/parse.rs` and `src/parse/lex.rs`).

Strings are modelled as `List Char`.  Rust's byte-based slicing
(`&input[1..]`, `split_at`, `get(0..2)`) is modelled through
`Char.utf8Size`: a byte slice at an index that is not a character
boundary panics in Rust, which we model by returning `none`
(respectively a dedicated `crash` constructor).
-/

namespace Plm

/-- The set recognized by Rust's `char::is_whitespace` (Unicode `White_Space`). -/
def rustIsWhitespace (c : Char) : Bool :=
  c.toNat == 0x09 || c.toNat == 0x0A || c.toNat == 0x0B || c.toNat == 0x0C ||
  c.toNat == 0x0D || c.toNat == 0x20 || c.toNat == 0x85 || c.toNat == 0xA0 ||
  c.toNat == 0x1680 || (0x2000 ≤ c.toNat && c.toNat ≤ 0x200A) ||
  c.toNat == 0x2028 || c.toNat == 0x2029 || c.toNat == 0x202F ||
  c.toNat == 0x205F || c.toNat == 0x3000

/-- Rust `str::trim_start`: drop leading Unicode whitespace. -/
def trimStart (l : List Char) : List Char := l.dropWhile rustIsWhitespace

/-- Rust `char::is_ascii_alphabetic`. -/
def asciiAlpha (c : Char) : Bool :=
  (65 ≤ c.toNat && c.toNat ≤ 90) || (97 ≤ c.toNat && c.toNat ≤ 122)

/-- Total UTF-8 byte length of a string (Rust `str::len`). -/
def byteLen : List Char → Nat
  | [] => 0
  | c :: r => c.utf8Size + byteLen r

/-- The `ParseError` enum of `src/parse.rs`. -/
inductive ParseError where
  | invalidChar (c : Char)
  | mathShift
  | hashSign
  | alignmentChar
  | endOfInput
deriving DecidableEq, Repr

/-- Outcome of a fallible cursor-advancing lexer function: `crash` models a
Rust panic (an out-of-char-boundary byte slice), `err` a returned
`Err(ParseError)` leaving the cursor untouched, `ok` a success together with
the rest of the input (the advanced cursor). -/
inductive ROut (α : Type) where
  | crash
  | err (e : ParseError)
  | ok (a : α) (rest : List Char)
deriving DecidableEq, Repr

/-- The `Token` enum of the crate root, as used by `lex.rs`. -/
inductive Token where
  | controlSequence (name : List Char)
  | character (c : Char)
deriving DecidableEq, Repr

/-- The `DimensionUnit` enum of `attribute.rs` (variants as matched in
`dimension_unit`). -/
inductive DimensionUnit where
  | Em | Ex | Pt | Pc | In | Bp | Cm | Mm | Dd | Cc | Sp | Mu
deriving DecidableEq, Repr

/-- `lex::one_optional_space`: if the first character is whitespace
(Rust `char::is_whitespace`), consume it via the byte slice `&input[1..]` —
which panics (`none`) when that character occupies more than one byte —
else leave the input unchanged and report `false`. -/
def one_optional_space (l : List Char) : Option (Bool × List Char) :=
  match l with
  | [] => some (false, [])
  | c :: rest =>
    if rustIsWhitespace c then
      if c.utf8Size = 1 then some (true, rest) else none
    else
      some (false, c :: rest)

/-- The closure passed to `trim_start_matches` in `lex::signs`: strip leading
`-` (counted), `+` and whitespace characters, returning the count of `-`
stripped and the remaining input. -/
def stripSigns : List Char → Nat → Nat × List Char
  | [], n => (n, [])
  | c :: rest, n =>
    if c = '-' then stripSigns rest (n + 1)
    else if c = '+' ∨ rustIsWhitespace c then stripSigns rest n
    else (n, c :: rest)

/-- `lex::signs`: trim leading whitespace, strip signs and whitespace counting
`-` occurrences, trim again; the signum is `-1` iff the count is odd.
This function is infallible (its Rust `Result` is always `Ok`). -/
def signs (l : List Char) : Int × List Char :=
  let p := stripSigns (trimStart l) 0
  (if p.1 % 2 = 0 then 1 else -1, trimStart p.2)

/-- Rust `char::is_ascii_digit`. -/
def asciiDigit (c : Char) : Bool := 48 ≤ c.toNat && c.toNat ≤ 57

/-- Generic digit-run accumulator shared by `lex::decimal`, `lex::octal` and
`lex::hexadecimal`: the closure passed to `trim_start_matches` folds matching
characters into a `usize` accumulator (wrapping at `2 ^ 64`). -/
def takeNum (p : Char → Bool) (b : Nat) (dv : Char → Nat) :
    List Char → Nat → Nat × List Char
  | [], n => (n, [])
  | c :: rest, n =>
    if p c then takeNum p b dv rest ((n * b + dv c) % 2 ^ 64)
    else (n, c :: rest)

/-- Digit value used by `decimal` and `octal`: `(c as u8 - b'0')`. -/
def decVal (c : Char) : Nat := c.toNat - 48

/-- Digit value used by `hexadecimal`: `c.to_digit(16)`; on the characters
matched by its predicate this is `c - b'0'` for digits and `c - b'A' + 10`
for `A`–`F`. -/
def hexVal (c : Char) : Nat := if c.toNat ≤ 57 then c.toNat - 48 else c.toNat - 55

/-- The predicate of `lex::hexadecimal`:
`c.is_ascii_alphanumeric() && c < 'G'`. -/
def hexPred (c : Char) : Bool :=
  (asciiDigit c || asciiAlpha c) && c.toNat < 71

/-- `lex::decimal`: maximal run of ASCII digits folded in base 10, then one
optional space (whose byte slice may panic). The Rust `Result` is always
`Ok`; only the panic (`none`) remains as a failure mode. -/
def decimal (l : List Char) : Option (Nat × List Char) :=
  let p := takeNum asciiDigit 10 decVal l 0
  (one_optional_space p.2).map fun q => (p.1, q.2)

/-- `lex::octal`: maximal run of ASCII *decimal* digits (the source tests
`is_ascii_digit`, so `8` and `9` are accepted) folded in base 8, then one
optional space. -/
def octal (l : List Char) : Option (Nat × List Char) :=
  let p := takeNum asciiDigit 8 decVal l 0
  (one_optional_space p.2).map fun q => (p.1, q.2)

/-- `lex::hexadecimal`: maximal run of characters with
`is_ascii_alphanumeric && c < 'G'` folded in base 16, then one optional
space. -/
def hexadecimal (l : List Char) : Option (Nat × List Char) :=
  let p := takeNum hexPred 16 hexVal l 0
  (one_optional_space p.2).map fun q => (p.1, q.2)

/-- `lex::rhs_control_sequence`: empty input gives the empty name; otherwise
`split_at(max(#leading ASCII alphabetic, 1))` — a *byte* split, which panics
when the leading run is empty and the first character is multi-byte — and the
rest is trimmed of leading whitespace in both branches. -/
def rhs_control_sequence (l : List Char) : Option (List Char × List Char) :=
  match l with
  | [] => some ([], [])
  | c :: rest =>
    let run := (c :: rest).takeWhile asciiAlpha
    if run.length = 0 then
      if c.utf8Size = 1 then some ([c], trimStart rest) else none
    else
      some (run, trimStart ((c :: rest).drop run.length))

/-- `lex::control_sequence`: require a leading backslash (consuming it), then
`rhs_control_sequence`; on a non-backslash first character return
`InvalidChar` *without advancing the cursor*; on empty input `EndOfInput`. -/
def control_sequence (l : List Char) : ROut (List Char) :=
  match l with
  | '\\' :: rest =>
    match rhs_control_sequence rest with
    | some (name, r) => .ok name r
    | none => .crash
  | c :: _ => .err (.invalidChar c)
  | [] => .err .endOfInput

/-- `lex::token`: a control sequence if the input starts with a backslash;
otherwise the `InvalidChar(c)` returned by `control_sequence` is converted
into `Token::Character(c)` — with the cursor left exactly where it was,
since the error path of `control_sequence` does not advance it. -/
def token (l : List Char) : ROut Token :=
  match control_sequence l with
  | .ok cs r => .ok (.controlSequence cs) r
  | .err (.invalidChar c) => .ok (.character c) l
  | .err e => .err e
  | .crash => .crash

/-- The scan of `lex::group_content`, fused with the slicing: returns the
content before the matching unescaped `}` at balance zero and the input after
that `}`, or `none` when the input ends first. The `escaped` flag is toggled
by `\` and reset by every other character; `{`/`}` only count when not
escaped. -/
def group_content_core : List Char → Bool → Nat → Option (List Char × List Char)
  | [], _, _ => none
  | c :: rest, escaped, balance =>
    if c = '{' ∧ ¬escaped then
      (group_content_core rest false (balance + 1)).map fun p => (c :: p.1, p.2)
    else if c = '}' ∧ ¬escaped then
      if balance = 0 then some ([], rest)
      else (group_content_core rest false (balance - 1)).map fun p => (c :: p.1, p.2)
    else if c = '\\' then
      (group_content_core rest (!escaped) balance).map fun p => (c :: p.1, p.2)
    else
      (group_content_core rest false balance).map fun p => (c :: p.1, p.2)

/-- `lex::group_content` (the opening `{` already consumed): the slice up to
the matching unescaped `}`, the cursor advanced past it; `EndOfInput` when no
such `}` exists. -/
def group_content (l : List Char) : ROut (List Char) :=
  match group_content_core l false 0 with
  | some (content, rest) => .ok content rest
  | none => .err .endOfInput

/-- The two-ASCII-character unit table of `lex::dimension_unit`. -/
def unitOf (c1 c2 : Char) : Option DimensionUnit :=
  if c1 = 'e' ∧ c2 = 'm' then some .Em
  else if c1 = 'e' ∧ c2 = 'x' then some .Ex
  else if c1 = 'p' ∧ c2 = 't' then some .Pt
  else if c1 = 'p' ∧ c2 = 'c' then some .Pc
  else if c1 = 'i' ∧ c2 = 'n' then some .In
  else if c1 = 'b' ∧ c2 = 'p' then some .Bp
  else if c1 = 'c' ∧ c2 = 'm' then some .Cm
  else if c1 = 'm' ∧ c2 = 'm' then some .Mm
  else if c1 = 'd' ∧ c2 = 'd' then some .Dd
  else if c1 = 'c' ∧ c2 = 'c' then some .Cc
  else if c1 = 's' ∧ c2 = 'p' then some .Sp
  else if c1 = 'm' ∧ c2 = 'u' then some .Mu
  else none

/-- The `matches!(unit.as_bytes()[0], b'e' | b'p' | b'i' | b'b' | b'c' | b'm' | b'd' | b's')`
test of `lex::dimension_unit`. -/
def unitStart (c : Char) : Bool :=
  c = 'e' || c = 'p' || c = 'i' || c = 'b' || c = 'c' || c = 'm' || c = 'd' || c = 's'

/-- `lex::dimension_unit`: trim leading whitespace; fewer than 2 *bytes* is
`EndOfInput`; `input.get(0..2)` succeeds only when byte 2 is a character
boundary — on failure the error carries the first non-ASCII character; a
recognized unit consumes its two bytes and one optional space; an
unrecognized pair yields `InvalidChar` of the second character when the first
byte is a unit start and of the first character otherwise. -/
def dimension_unit (l0 : List Char) : ROut DimensionUnit :=
  let l := trimStart l0
  if byteLen l < 2 then .err .endOfInput
  else
    match l with
    | [] => .err .endOfInput
    | c1 :: rest =>
      if c1.utf8Size = 1 then
        match rest with
        | [] => .crash
        | c2 :: rest2 =>
          if c2.utf8Size = 1 then
            match unitOf c1 c2 with
            | some u =>
              match one_optional_space rest2 with
              | some (_, r) => .ok u r
              | none => .crash
            | none =>
              if unitStart c1 then .err (.invalidChar c2) else .err (.invalidChar c1)
          else
            .err (.invalidChar c2)
      else
        .err (.invalidChar c1)

/-- Reinterpretation `usize as isize` used when `lex::integer` applies the
signum. -/
def toIsize (n : Nat) : Int :=
  if n < 2 ^ 63 then (n : Int) else (n : Int) - 2 ^ 64

/-- The body of `lex::integer` after the signum has been computed: the next
character must be ASCII; a digit starts a decimal run (the digit is *not*
pre-consumed — `decimal` re-reads it); a backquote takes the next byte
(optionally preceded by a backslash) as a code point; a single quote starts
an octal run; a double quote a hexadecimal run. -/
def integerAfterSigns (sg : Int) (l : List Char) : ROut Int :=
  match l with
  | [] => .err .endOfInput
  | c :: rest =>
    if 128 ≤ c.toNat then .err (.invalidChar c)
    else if asciiDigit c then
      match decimal (c :: rest) with
      | some (n, r) => .ok (toIsize n * sg) r
      | none => .crash
    else if c = '`' then
      match rest with
      | [] => .err .endOfInput
      | b :: r2 =>
        if b = '\\' then
          match r2 with
          | [] => .err .endOfInput
          | b2 :: r3 =>
            if b2.toNat < 128 then .ok (toIsize b2.toNat * sg) r3
            else .err (.invalidChar b2)
        else if b.toNat < 128 then .ok (toIsize b.toNat * sg) r2
        else .err (.invalidChar b)
    else if c.toNat = 39 then
      match octal rest with
      | some (n, r) => .ok (toIsize n * sg) r
      | none => .crash
    else if c.toNat = 34 then
      match hexadecimal rest with
      | some (n, r) => .ok (toIsize n * sg) r
      | none => .crash
    else .err (.invalidChar c)

/-- `lex::integer`: signs, then `integerAfterSigns` on the advanced
cursor. -/
def integer (l : List Char) : ROut Int :=
  let s := signs l
  integerAfterSigns s.1 s.2

/-- `lex::argument`: trim leading whitespace; a leading `{` is consumed and
the argument is the group content; otherwise the argument is one token. -/
inductive Argument where
  | group (content : List Char)
  | tok (t : Token)
deriving DecidableEq, Repr

/-- `lex::argument` (see `Argument`). -/
def argument (l : List Char) : ROut Argument :=
  match trimStart l with
  | '{' :: rest =>
    match group_content_core rest false 0 with
    | some (content, r) => .ok (.group content) r
    | none => .err .endOfInput
  | other =>
    match token other with
    | .ok t r => .ok (.tok t) r
    | .err e => .err e
    | .crash => .crash

/-! ## Parser engine (`src/parse.rs`)

The event vocabulary, instruction stack and group stack below follow
`src/parse.rs`.  The dispatch loop `nextEvent` embeds
`impl Iterator for Parser::next`.  The two dispatch targets
`handle_char_token` and `handle_primitive` live in
`src/parse/primitives.rs`, which is not part of the sources; they are
modelled from the spec (§4.2–4.3) below.  Both only read and rewrite the
current substring and the group stack and push instructions — they never pop
the instruction stack, which is what the frame theorems rely on. -/

/-- Font variants (placeholder for the `Font` attribute type, out of scope;
the spec names upright, bold, italic, …). -/
inductive Font where
  | upright | bold | italic
deriving DecidableEq, Repr

/-- The `GroupType` enum of `src/parse.rs`. -/
inductive GroupType where
  | internal | brace | beginGroup
deriving DecidableEq, Repr

/-- The `GroupNesting` struct of `src/parse.rs`. -/
structure GroupNesting where
  fontState : Option Font
  groupType : GroupType
deriving DecidableEq, Repr

/-- Infix marker kinds (spec §3 `Infix(kind)`). -/
inductive InfixKind where
  | subscript | superscript | overscript | underscript | fraction
deriving DecidableEq, Repr

/-- Event contents (spec §3 `Content`): identifiers, operators, numbers. -/
inductive ContentE where
  | number (s : List Char) (variant : Option Font)
  | identifierChar (c : Char) (variant : Option Font)
  | operatorChar (c : Char)
deriving DecidableEq, Repr

/-- The `Event` vocabulary (spec §3). -/
inductive Event where
  | beginGroup
  | endGroup
  | content (c : ContentE)
  | infixOp (k : InfixKind)
deriving DecidableEq, Repr

/-- The `Instruction` enum of `src/parse.rs`. -/
inductive Instruction where
  | event (e : Event)
  | substring (content : List Char) (popInternalGroup : Bool)
deriving DecidableEq, Repr

/-- The parser state: instruction stack and group stack (`src/parse.rs`,
`Parser`); the head of each list is the top of the corresponding Rust
`Vec`. -/
structure ParserState where
  instructionStack : List Instruction
  groupStack : List GroupNesting
deriving DecidableEq, Repr

/-- `Parser::new`: seed the instruction stack (top first) with the
`BeginGroup` event, the whole input as a `Substring` with
`pop_internal_group = true`, and the `EndGroup` event; seed the group stack
with one `Internal` group without font state. -/
def Parser.new (input : List Char) : ParserState :=
  ⟨[.event .beginGroup, .substring input true, .event .endGroup],
   [⟨none, .internal⟩]⟩

/-- The font state of the innermost group
(`self.group_stack.last().map(|g| g.font_state).flatten()`). -/
def fontOf (gs : List GroupNesting) : Option Font :=
  match gs with
  | g :: _ => g.fontState
  | [] => none

/-- Modelled from the spec: `handle_char_token` (spec §4.3), whose source
`src/parse/primitives.rs` is not in the sources.  Given the character (already
consumed from the current substring), the rest of the current substring and
the group stack, it returns an optional result (`none` meaning the character
produces no event and parsing continues — whitespace and comments), the
rewritten current substring and the new group stack. -/
def handleCharToken (c : Char) (cur : List Char) (gs : List GroupNesting) :
    Option (Except ParseError Event) × List Char × List GroupNesting :=
  if c = '{' then
    (some (.ok .beginGroup), cur, ⟨fontOf gs, .brace⟩ :: gs)
  else if c = '}' then
    match gs with
    | g :: gs' =>
      if g.groupType = .brace then (some (.ok .endGroup), cur, gs')
      else (some (.error (.invalidChar '}')), cur, g :: gs')
    | [] => (some (.error (.invalidChar '}')), cur, [])
  else if c = '_' then (some (.ok (.infixOp .subscript)), cur, gs)
  else if c = '^' then (some (.ok (.infixOp .superscript)), cur, gs)
  else if c = '$' then (some (.error .mathShift), cur, gs)
  else if c = '#' then (some (.error .hashSign), cur, gs)
  else if c = '&' then (some (.error .alignmentChar), cur, gs)
  else if c = '%' then (none, (cur.dropWhile (fun d => d ≠ '\n')).drop 1, gs)
  else if rustIsWhitespace c then (none, cur, gs)
  else if c = '+' ∨ c = '-' ∨ c = '=' ∨ c = '*' ∨ c = '/' ∨ c = '<' ∨ c = '>' then
    (some (.ok (.content (.operatorChar c))), cur, gs)
  else
    (some (.ok (.content (.identifierChar c (fontOf gs)))), cur, gs)

/-- The characters a `Token` argument re-parses as (spec §4.3: a singleton
substring for `Token` arguments). -/
def tokChars : Token → List Char
  | .character c => [c]
  | .controlSequence cs => '\\' :: cs

/-- The substring an argument is re-parsed from. -/
def argChars : Argument → List Char
  | .group g => g
  | .tok t => tokChars t

/-- Modelled from the spec: `handle_primitive` (spec §4.2–§4.3), whose source
`src/parse/primitives.rs` (and the operator table) is not in the sources.
A representative table is modelled: an identifier primitive (`\alpha`), the
argument-desugaring `\frac`, the font modifiers `\mathbf`/`\mathrm`/`\mathit`
(which open an `Internal` group closed by an empty-substring sentinel with
`pop_internal_group = true`), `\begingroup`/`\endgroup`, and an error for
unknown names.  Returns `none` for a panic inside argument lexing; otherwise
the optional emitted result (`none` inside meaning no event, continue), the
instructions to push above the current substring, the rewritten current
substring and the new group stack. -/
def handlePrimitive (name : List Char) (cur : List Char) (gs : List GroupNesting) :
    Option ((Option (Except ParseError Event)) × List Instruction × List Char ×
      List GroupNesting) :=
  if name = ['a', 'l', 'p', 'h', 'a'] then
    some (some (.ok (.content (.identifierChar 'α' (fontOf gs)))), [], cur, gs)
  else if name = ['f', 'r', 'a', 'c'] then
    match argument cur with
    | .crash => none
    | .err e => some (some (.error e), [], cur, gs)
    | .ok a cur1 =>
      match argument cur1 with
      | .crash => none
      | .err e => some (some (.error e), [], cur1, gs)
      | .ok b cur2 =>
        some (some (.ok .beginGroup),
          [.substring (argChars a) false, .event .endGroup,
           .event (.infixOp .fraction), .event .beginGroup,
           .substring (argChars b) false, .event .endGroup, .event .endGroup],
          cur2, gs)
  else if name = ['m', 'a', 't', 'h', 'b', 'f'] ∨ name = ['m', 'a', 't', 'h', 'r', 'm'] ∨
      name = ['m', 'a', 't', 'h', 'i', 't'] then
    let f : Font := if name = ['m', 'a', 't', 'h', 'b', 'f'] then .bold
      else if name = ['m', 'a', 't', 'h', 'r', 'm'] then .upright else .italic
    match argument cur with
    | .crash => none
    | .err e => some (some (.error e), [], cur, gs)
    | .ok a cur1 =>
      some (none, [.substring (argChars a) false, .substring [] true], cur1,
        ⟨some f, .internal⟩ :: gs)
  else if name = ['b', 'e', 'g', 'i', 'n', 'g', 'r', 'o', 'u', 'p'] then
    some (some (.ok .beginGroup), [], cur, ⟨fontOf gs, .beginGroup⟩ :: gs)
  else if name = ['e', 'n', 'd', 'g', 'r', 'o', 'u', 'p'] then
    match gs with
    | g :: gs' =>
      if g.groupType = .beginGroup then some (some (.ok .endGroup), [], cur, gs')
      else some (some (.error (.invalidChar '\\')), [], cur, g :: gs')
    | [] => some (some (.error (.invalidChar '\\')), [], cur, [])
  else
    -- Unknown control sequence: the source taxonomy has no dedicated
    -- variant yet (spec §7 defers it), modelled as `InvalidChar`.
    some (some (.error (.invalidChar '\\')), [], cur, gs)

deriving instance DecidableEq for Except

/-- Result of one `next()` call: `fail` is fuel exhaustion or a Rust panic,
`done` is the iterator returning `None`, `item` one yielded
`Result<Event, ParseError>`. -/
inductive StepRes where
  | fail
  | done (st : ParserState)
  | item (r : Except ParseError Event) (st : ParserState)
deriving DecidableEq, Repr

/-- `impl Iterator for Parser::next` (`src/parse.rs`), fuelled.  A pending
event is popped and returned.  An *empty* substring is popped and `next()`
recurses — the source ignores `pop_internal_group` here (contrast
`current_string`, which pops the `Internal` group).  Otherwise the first
character dispatches: digits and `.` are lexed into a `Number` event;
a backslash reads a control-sequence name with `rhs_control_sequence`
(whose byte split can panic) and dispatches to `handlePrimitive`; any other
character is consumed and dispatched to `handleCharToken`. -/
def nextEvent : Nat → ParserState → StepRes
  | 0, _ => .fail
  | n + 1, st =>
    match st.instructionStack with
    | [] => .done st
    | .event e :: rest => .item (.ok e) ⟨rest, st.groupStack⟩
    | .substring content pop :: rest =>
      match content with
      | [] => nextEvent n ⟨rest, st.groupStack⟩
      | c :: cs =>
        if c = '.' ∨ asciiDigit c then
          let len := 1 + (cs.takeWhile (fun d => asciiDigit d || d = '.')).length
          .item (.ok (.content (.number (content.take len) (fontOf st.groupStack))))
            ⟨.substring (content.drop len) pop :: rest, st.groupStack⟩
        else if c = '\\' then
          match rhs_control_sequence cs with
          | none => .fail
          | some (name, r) =>
            match handlePrimitive name r st.groupStack with
            | none => .fail
            | some (res, push, cur', gs') =>
              let st2 : ParserState := ⟨push ++ .substring cur' pop :: rest, gs'⟩
              match res with
              | some rr => .item rr st2
              | none => nextEvent n st2
        else
          match handleCharToken c cs st.groupStack with
          | (res, cur', gs') =>
            let st2 : ParserState := ⟨.substring cur' pop :: rest, gs'⟩
            match res with
            | some rr => .item rr st2
            | none => nextEvent n st2

/-- Drive the parser to completion, collecting every yielded
`Result<Event, ParseError>`: `none` when the fuel runs out or a panic
occurs, otherwise the collected items and the final state. -/
def run : Nat → ParserState → Option (List (Except ParseError Event) × ParserState)
  | 0, _ => none
  | n + 1, st =>
    match nextEvent (n + 1) st with
    | .fail => none
    | .done st' => some ([], st')
    | .item r st' => (run n st').map fun p => (r :: p.1, p.2)

/-! ## Helper lemmas on characters -/

theorem asciiDigit_toNat {c : Char} (h : asciiDigit c = true) :
    48 ≤ c.toNat ∧ c.toNat ≤ 57 := by
  simpa [asciiDigit, Bool.and_eq_true, decide_eq_true_eq] using h

theorem asciiDigit_not_ws {c : Char} (h : asciiDigit c = true) :
    rustIsWhitespace c = false := by
  have h2 := asciiDigit_toNat h
  cases hw : rustIsWhitespace c with
  | false => rfl
  | true =>
    exfalso
    simp only [rustIsWhitespace, Bool.or_eq_true, beq_iff_eq, Bool.and_eq_true,
      decide_eq_true_eq] at hw
    omega

theorem asciiDigit_ne_minus {c : Char} (h : asciiDigit c = true) : c ≠ '-' := by
  intro e
  have h2 := asciiDigit_toNat h
  subst e
  have : ('-').toNat = 45 := by decide
  omega

theorem asciiDigit_ne_plus {c : Char} (h : asciiDigit c = true) : c ≠ '+' := by
  intro e
  have h2 := asciiDigit_toNat h
  subst e
  have : ('+').toNat = 43 := by decide
  omega

/-! ## Claim C2 (`token` is supposed to consume a character token)

`control_sequence` returns `Err(InvalidChar(c))` without advancing the
cursor, and `token` converts that error into `Token::Character(c)`; the
cursor is therefore *not* advanced past `c`, and a second call returns the
same character again. -/

/-- Claim C2, evaluated at the failing input `"ab"`: `token` yields
`Character('a')` but leaves the cursor at `"ab"`, so a second call on the
returned cursor yields `Character('a')` again instead of `'b'`. -/
theorem token_does_not_consume_character :
    token ['a', 'b'] = .ok (.character 'a') ['a', 'b'] ∧
    (match token ['a', 'b'] with
      | .ok _ r => token r
      | o => o) = .ok (Token.character 'a') ['a', 'b'] := by
  constructor <;> decide

/-! ## Claim C9 (`one_optional_space` on multi-byte whitespace)

`one_optional_space` admits any Unicode whitespace via
`char::is_whitespace` but then slices `&input[1..]` by byte; U+00A0
(no-break space) is whitespace occupying two bytes, so byte index 1 is not
a character boundary and the slice panics. -/

/-- Claim C9, evaluated at the failing input `"\u{00A0}"`: the character is
recognized as whitespace, yet the function panics (modelled as `none`)
instead of consuming it and returning `true`. -/
theorem one_optional_space_panics_on_nbsp :
    rustIsWhitespace (Char.ofNat 160) = true ∧
    (Char.ofNat 160).utf8Size = 2 ∧
    one_optional_space [Char.ofNat 160] = none := by
  refine ⟨by decide, by decide, by decide⟩

/-! ## Claim C10 (`decimal`/`octal`/`hexadecimal` totality)

All three never build an `Err` — but each ends with `one_optional_space`,
which panics when the character after the digit run is a multi-byte
whitespace character, so they do not return `Ok` on every input. -/

/-- Claim C10, evaluated at the failing input `"\u{00A0}"`: all three number
lexers panic (modelled as `none`) instead of returning `Ok(0)`; on a
non-digit, non-panicking input they do return 0 without consuming it. -/
theorem number_lexers_panic_on_nbsp :
    decimal [Char.ofNat 160] = none ∧
    octal [Char.ofNat 160] = none ∧
    hexadecimal [Char.ofNat 160] = none ∧
    decimal ['x'] = some (0, ['x']) ∧
    octal [] = some (0, []) ∧
    hexadecimal ['G'] = some (0, ['G']) := by
  refine ⟨by decide, by decide, by decide, by decide, by decide, by decide⟩

/-! ## Claim C3 (`next()` ignores `pop_internal_group`)

`Parser::next` pops an empty `Substring` without consulting its
`pop_internal_group` flag (only `current_string` honours it), so the seed
`Internal` group is still on the group stack after the outer substring is
drained at true end of input. -/

/-- Claim C3, evaluated at the failing input `""`: after the complete run
the instruction stack is empty but the group stack still holds the seed
`Internal` group — `next()` never popped it. -/
theorem seed_internal_group_never_popped :
    run 3 (Parser.new []) =
      some ([Except.ok Event.beginGroup, Except.ok Event.endGroup],
        ⟨[], [⟨none, GroupType.internal⟩]⟩) ∧
    ([⟨none, GroupType.internal⟩] : List GroupNesting) ≠ [] := by
  refine ⟨by decide, by decide⟩

/-! ## Claim C4 (`rhs_control_sequence`) -/

/-- Claim C4 as stated is false: at `", x"` the name is the non-alphabetic
`","` and yet the trailing whitespace *is* consumed (the source trims in
both branches); and at `"é"` (non-alphabetic, two bytes) the byte-based
`split_at(1)` panics instead of returning the one character. -/
theorem rhs_control_sequence_counterexample :
    rhs_control_sequence [',', ' ', 'x'] = some ([','], ['x']) ∧
    rhs_control_sequence ['é'] = none := by
  refine ⟨by decide, by decide⟩

theorem drop_takeWhile_length (p : α → Bool) (l : List α) :
    l.drop (l.takeWhile p).length = l.dropWhile p := by
  induction l with
  | nil => rfl
  | cons c t ih =>
    by_cases hc : p c
    · simp [List.takeWhile_cons, List.dropWhile_cons, hc, ih]
    · simp [List.takeWhile_cons, List.dropWhile_cons, hc]

/-- Claim C4 amended: `rhs_control_sequence` returns the maximal leading run
of ASCII alphabetic characters when the first character is alphabetic and
exactly the first character when it is non-alphabetic *and single-byte*
(a multi-byte non-alphabetic first character panics on the byte split);
trailing whitespace after the name is consumed in *both* cases; empty input
returns the empty name. -/
theorem rhs_control_sequence_spec (l : List Char) :
    (l = [] → rhs_control_sequence l = some ([], [])) ∧
    (∀ c cs, l = c :: cs → asciiAlpha c = true →
      rhs_control_sequence l =
        some (l.takeWhile asciiAlpha, trimStart (l.dropWhile asciiAlpha))) ∧
    (∀ c cs, l = c :: cs → asciiAlpha c = false → c.utf8Size = 1 →
      rhs_control_sequence l = some ([c], trimStart cs)) ∧
    (∀ c cs, l = c :: cs → asciiAlpha c = false → c.utf8Size ≠ 1 →
      rhs_control_sequence l = none) := by
  refine ⟨fun he => by subst he; rfl, ?_, ?_, ?_⟩
  · intro c cs he ha
    subst he
    have hrun : (c :: cs).takeWhile asciiAlpha = c :: cs.takeWhile asciiAlpha := by
      simp [List.takeWhile_cons, ha]
    simp only [rhs_control_sequence, hrun, List.length_cons]
    rw [if_neg (by omega)]
    simp [List.drop_succ_cons, drop_takeWhile_length, List.dropWhile_cons, ha]
  · intro c cs he ha hs
    subst he
    have hrun : (c :: cs).takeWhile asciiAlpha = [] := by
      simp [List.takeWhile_cons, ha]
    simp [rhs_control_sequence, hrun, hs]
  · intro c cs he ha hs
    subst he
    have hrun : (c :: cs).takeWhile asciiAlpha = [] := by
      simp [List.takeWhile_cons, ha]
    simp [rhs_control_sequence, hrun, hs]

/-- Witness for the amended C4 theorem at the concrete inputs `"ab c"`
(alphabetic run with trailing space) and `"#x"` (single-byte control
symbol). -/
theorem rhs_control_sequence_spec_witness :
    rhs_control_sequence ['a', 'b', ' ', 'c'] = some (['a', 'b'], ['c']) ∧
    rhs_control_sequence ['#', 'x'] = some (['#'], ['x']) := by
  constructor
  · exact ((rhs_control_sequence_spec ['a', 'b', ' ', 'c']).2.1 'a' ['b', ' ', 'c']
      rfl (by decide)).trans (by decide)
  · exact ((rhs_control_sequence_spec ['#', 'x']).2.2.1 '#' ['x']
      rfl (by decide) (by decide)).trans (by decide)

/-! ## Claim C5 (`signs` parity) -/

theorem stripSigns_all_signs (l : List Char)
    (h : ∀ c ∈ l, c = '+' ∨ c = '-' ∨ rustIsWhitespace c = true) (n : Nat) :
    stripSigns l n = (n + l.count '-', []) := by
  induction l generalizing n with
  | nil => simp [stripSigns]
  | cons c t ih =>
    have hc := h c (by simp)
    have ht : ∀ c ∈ t, c = '+' ∨ c = '-' ∨ rustIsWhitespace c = true :=
      fun d hd => h d (by simp [hd])
    by_cases hm : c = '-'
    · subst hm
      simp only [stripSigns, if_pos rfl, ih ht]
      simp [List.count_cons]
      omega
    · have hc2 : c = '+' ∨ rustIsWhitespace c = true := by
        rcases hc with h1 | h1 | h1
        · exact Or.inl h1
        · exact absurd h1 hm
        · exact Or.inr h1
      have hbe : (c == '-') = false := by simp [hm]
      simp only [stripSigns, if_neg hm, if_pos hc2, ih ht]
      simp [List.count_cons, hbe]

theorem trimStart_count_minus (l : List Char) :
    (trimStart l).count '-' = l.count '-' := by
  induction l with
  | nil => rfl
  | cons c t ih =>
    by_cases hw : rustIsWhitespace c
    · have hm : c ≠ '-' := by
        intro e; subst e; revert hw; decide
      simp [trimStart, List.dropWhile_cons, hw, List.count_cons, hm] at *
      simpa [hm] using ih
    · simp [trimStart, List.dropWhile_cons, hw]

theorem trimStart_mem (l : List Char) : ∀ c ∈ trimStart l, c ∈ l :=
  fun _ hc => (List.dropWhile_sublist _).mem hc

/-- Claim C5: on a string drawn from `+`, `-` and whitespace, `signs`
succeeds, returns `-1` exactly when the number of `-` characters is odd and
`+1` otherwise, and consumes the whole string; and on the concrete test
input `"  +    +-   \test"` it returns `-1` with the cursor at
`"\test"`. -/
theorem signs_parity :
    (∀ l : List Char, (∀ c ∈ l, c = '+' ∨ c = '-' ∨ rustIsWhitespace c = true) →
      signs l = (if l.count '-' % 2 = 1 then -1 else 1, [])) ∧
    signs [' ', ' ', '+', ' ', ' ', ' ', ' ', '+', '-', ' ', ' ', ' ', '\\', 't', 'e', 's', 't'] =
      (-1, ['\\', 't', 'e', 's', 't']) := by
  constructor
  · intro l h
    have h' : ∀ c ∈ trimStart l, c = '+' ∨ c = '-' ∨ rustIsWhitespace c = true :=
      fun c hc => h c (trimStart_mem l c hc)
    simp only [signs, stripSigns_all_signs (trimStart l) h' 0, Nat.zero_add,
      trimStart_count_minus]
    have : trimStart ([] : List Char) = [] := rfl
    rw [this]
    rcases Nat.even_or_odd (l.count '-') with he | ho
    · have h0 : l.count '-' % 2 = 0 := Nat.even_iff.mp he
      simp [h0]
    · have h1 : l.count '-' % 2 = 1 := Nat.odd_iff.mp ho
      simp [h1]
  · decide

/-- Witness for C5 at the concrete input `"-+-- "`. -/
theorem signs_parity_witness :
    signs ['-', '+', '-', '-', ' '] = (-1, []) := by
  exact (signs_parity.1 ['-', '+', '-', '-', ' '] (by decide)).trans (by decide)

/-! ## Claim C8 (`dimension_unit`) -/

/-- Claim C8 as stated is false: at `"aé"` the first byte `a` is not a unit
start, so the claim predicts `InvalidChar('a')`; but byte 2 splits the
two-byte `é`, so `input.get(0..2)` fails and the code reports the first
non-ASCII character, `InvalidChar('é')`. -/
theorem dimension_unit_counterexample :
    dimension_unit ['a', 'é'] = .err (.invalidChar 'é') ∧
    unitStart 'a' = false ∧ 'é' ≠ 'a' := by
  refine ⟨by decide, by decide, by decide⟩

/-- Wrapping of a recognized unit: consume the two unit bytes and one
optional trailing space (whose byte slice panics on a multi-byte whitespace
character). -/
def unitTail (u : DimensionUnit) (r : List Char) : ROut DimensionUnit :=
  match one_optional_space r with
  | some (_, r2) => .ok u r2
  | none => .crash

/-- Claim C8 amended: after trimming leading whitespace, fewer than 2 bytes
fails with `EndOfInput`; a recognized two-character unit (both characters are
single-byte) is returned, its two bytes consumed, followed by one optional
trailing space (which panics on a multi-byte whitespace character); an
unrecognized pair of single-byte characters fails with `InvalidChar` of the
second character when the first is a unit-start byte and of the first
character otherwise; but when byte 2 is not a character boundary (the first
or second character is multi-byte) the error carries the first non-ASCII
character — the second character after a single-byte first, respectively the
first character — regardless of unit-start bytes. -/
theorem dimension_unit_spec (l : List Char) :
    (byteLen (trimStart l) < 2 → dimension_unit l = .err .endOfInput) ∧
    (∀ c1 c2 r u, trimStart l = c1 :: c2 :: r → c1.utf8Size = 1 → c2.utf8Size = 1 →
      unitOf c1 c2 = some u →
      dimension_unit l = unitTail u r) ∧
    (∀ c1 c2 r, trimStart l = c1 :: c2 :: r → c1.utf8Size = 1 → c2.utf8Size = 1 →
      unitOf c1 c2 = none →
      dimension_unit l = .err (.invalidChar (if unitStart c1 then c2 else c1))) ∧
    (∀ c1 c2 r, trimStart l = c1 :: c2 :: r → c1.utf8Size = 1 → c2.utf8Size ≠ 1 →
      dimension_unit l = .err (.invalidChar c2)) ∧
    (∀ c1 r, trimStart l = c1 :: r → c1.utf8Size ≠ 1 →
      dimension_unit l = .err (.invalidChar c1)) := by
  refine ⟨?_, ?_, ?_, ?_, ?_⟩
  · intro h
    simp [dimension_unit, h]
  · intro c1 c2 r u ht hs1 hs2 hu
    have he : byteLen (c1 :: c2 :: r) = c1.utf8Size + (c2.utf8Size + byteLen r) := rfl
    have hb : ¬ byteLen (c1 :: c2 :: r) < 2 := by omega
    simp [dimension_unit, ht, hb, hs1, hs2, hu, unitTail]
  · intro c1 c2 r ht hs1 hs2 hu
    have he : byteLen (c1 :: c2 :: r) = c1.utf8Size + (c2.utf8Size + byteLen r) := rfl
    have hb : ¬ byteLen (c1 :: c2 :: r) < 2 := by omega
    by_cases hst : unitStart c1 <;>
      simp [dimension_unit, ht, hb, hs1, hs2, hu, hst]
  · intro c1 c2 r ht hs1 hs2
    have he : byteLen (c1 :: c2 :: r) = c1.utf8Size + (c2.utf8Size + byteLen r) := rfl
    have h2 : 1 ≤ c2.utf8Size := Char.utf8Size_pos c2
    have hb : ¬ byteLen (c1 :: c2 :: r) < 2 := by omega
    simp [dimension_unit, ht, hb, hs1, hs2]
  · intro c1 r ht hs1
    have he : byteLen (c1 :: r) = c1.utf8Size + byteLen r := rfl
    have h1 : 1 ≤ c1.utf8Size := Char.utf8Size_pos c1
    have hb : ¬ byteLen (c1 :: r) < 2 := by omega
    simp [dimension_unit, ht, hb, hs1]

/-- Witness for the amended C8 theorem at the concrete inputs `" pt x"`
(recognized unit, trailing space consumed) and `"sa"` (unknown pair with
unit-start first byte: error carries the second character). -/
theorem dimension_unit_spec_witness :
    dimension_unit [' ', 'p', 't', ' ', 'x'] = .ok DimensionUnit.Pt ['x'] ∧
    dimension_unit ['s', 'a'] = .err (.invalidChar 'a') := by
  constructor
  · exact ((dimension_unit_spec [' ', 'p', 't', ' ', 'x']).2.1 'p' 't' [' ', 'x']
      DimensionUnit.Pt (by decide) (by decide) (by decide) (by decide)).trans (by decide)
  · exact ((dimension_unit_spec ['s', 'a']).2.2.1 's' 'a' [] (by decide) (by decide)
      (by decide) (by decide)).trans (by decide)

/-! ## Claim C7 (`group_content` balance) -/

/-- One step of the unescaped-brace balance scan (spec: a backslash toggles
an escaped flag, so `\{` and `\}` do not affect the balance and `\\` cancels
escaping). -/
def braceStep (st : Int × Bool) (c : Char) : Int × Bool :=
  if c = '{' ∧ ¬st.2 then (st.1 + 1, false)
  else if c = '}' ∧ ¬st.2 then (st.1 - 1, false)
  else if c = '\\' then (st.1, !st.2)
  else (st.1, false)

/-- The unescaped-brace balance scan of a string from a given state. -/
def braceScan (l : List Char) (st : Int × Bool) : Int × Bool := l.foldl braceStep st

theorem group_content_core_spec (l : List Char) :
    ∀ (esc : Bool) (bal : Nat) (content rest : List Char),
      group_content_core l esc bal = some (content, rest) →
      l = content ++ '}' :: rest ∧
      braceScan content ((bal : Int), esc) = (0, false) ∧
      ∀ k, 0 ≤ (braceScan (content.take k) ((bal : Int), esc)).1 := by
  induction l with
  | nil => intro esc bal content rest h; exact absurd h (by simp [group_content_core])
  | cons c t ih =>
    intro esc bal content rest h
    rw [group_content_core] at h
    split_ifs at h with h1 h2 h3 h4
    -- h1 : c = '{' ∧ ¬esc
    · cases hg : group_content_core t false (bal + 1) with
      | none => rw [hg] at h; exact absurd h (by simp)
      | some p =>
        rw [hg] at h
        simp only [Option.map_some', Option.some.injEq, Prod.mk.injEq] at h
        obtain ⟨hcon, hres⟩ := h
        obtain ⟨hl, hscan, hpref⟩ := ih false (bal + 1) p.1 p.2 (by rw [hg])
        obtain ⟨hc, he⟩ := h1
        have hcast : ((bal + 1 : Nat) : Int) = (bal : Int) + 1 := by omega
        have hstep : braceStep ((bal : Int), esc) c = (((bal + 1 : Nat) : Int), false) := by
          subst hc
          simp [braceStep, he, hcast]
        refine ⟨?_, ?_, ?_⟩
        · rw [← hcon, ← hres, hl]; rfl
        · rw [← hcon]
          simpa [braceScan, hstep] using hscan
        · intro k
          cases k with
          | zero => simp [braceScan]
          | succ k =>
            rw [← hcon]
            simpa [braceScan, List.take_succ_cons, hstep] using hpref k
    -- h2 : c = '}' ∧ ¬esc, h3 : bal = 0
    · obtain ⟨hc, he⟩ := h2
      simp only [Option.some.injEq, Prod.mk.injEq] at h
      obtain ⟨hcon, hres⟩ := h
      subst h3
      refine ⟨?_, ?_, ?_⟩
      · rw [← hcon, ← hres, hc]; rfl
      · have hesc : esc = false := by
          cases esc with
          | false => rfl
          | true => exact absurd rfl he
        rw [← hcon]
        simp [braceScan, hesc]
      · intro k
        rw [← hcon]
        simp [braceScan]
    -- bal ≠ 0 branch of the `}` case
    · cases hg : group_content_core t false (bal - 1) with
      | none => rw [hg] at h; exact absurd h (by simp)
      | some p =>
        rw [hg] at h
        simp only [Option.map_some', Option.some.injEq, Prod.mk.injEq] at h
        obtain ⟨hcon, hres⟩ := h
        obtain ⟨hl, hscan, hpref⟩ := ih false (bal - 1) p.1 p.2 (by rw [hg])
        obtain ⟨hc, he⟩ := h2
        have hcast : ((bal - 1 : Nat) : Int) = (bal : Int) - 1 := by omega
        have hstep : braceStep ((bal : Int), esc) c = (((bal - 1 : Nat) : Int), false) := by
          subst hc
          simp [braceStep, he, h1, hcast]
        refine ⟨?_, ?_, ?_⟩
        · rw [← hcon, ← hres, hl]; rfl
        · rw [← hcon]
          simpa [braceScan, hstep] using hscan
        · intro k
          cases k with
          | zero => simp [braceScan]
          | succ k =>
            rw [← hcon]
            simpa [braceScan, List.take_succ_cons, hstep] using hpref k
    -- h4 : c = '\\'
    · cases hg : group_content_core t (!esc) bal with
      | none => rw [hg] at h; exact absurd h (by simp)
      | some p =>
        rw [hg] at h
        simp only [Option.map_some', Option.some.injEq, Prod.mk.injEq] at h
        obtain ⟨hcon, hres⟩ := h
        obtain ⟨hl, hscan, hpref⟩ := ih (!esc) bal p.1 p.2 (by rw [hg])
        have hstep : braceStep ((bal : Int), esc) c = ((bal : Int), !esc) := by
          subst h4
          simp [braceStep, h1, h2]
        refine ⟨?_, ?_, ?_⟩
        · rw [← hcon, ← hres, hl]; rfl
        · rw [← hcon]
          simpa [braceScan, hstep] using hscan
        · intro k
          cases k with
          | zero => simp [braceScan]
          | succ k =>
            rw [← hcon]
            simpa [braceScan, List.take_succ_cons, hstep] using hpref k
    -- default: any other character resets the escape flag
    · cases hg : group_content_core t false bal with
      | none => rw [hg] at h; exact absurd h (by simp)
      | some p =>
        rw [hg] at h
        simp only [Option.map_some', Option.some.injEq, Prod.mk.injEq] at h
        obtain ⟨hcon, hres⟩ := h
        obtain ⟨hl, hscan, hpref⟩ := ih false bal p.1 p.2 (by rw [hg])
        have hstep : braceStep ((bal : Int), esc) c = ((bal : Int), false) := by
          simp only [Bool.not_eq_true] at h1 h2
          simp [braceStep, h1, h2, h4]
        refine ⟨?_, ?_, ?_⟩
        · rw [← hcon, ← hres, hl]; rfl
        · rw [← hcon]
          simpa [braceScan, hstep] using hscan
        · intro k
          cases k with
          | zero => simp [braceScan]
          | succ k =>
            rw [← hcon]
            simpa [braceScan, List.take_succ_cons, hstep] using hpref k

/-- Claim C7: whenever `group_content` succeeds, the returned slice has
unescaped-brace balance zero overall (so the counts of unescaped `{` and `}`
agree), every prefix of it has non-negative balance, and the input is exactly
the slice followed by the matching `}` and the advanced cursor; and
`group_content` either succeeds or fails with `EndOfInput` (never with any
other error, and it never panics). -/
theorem group_content_balanced (l : List Char) :
    (∀ content rest, group_content l = .ok content rest →
      (braceScan content (0, false)).1 = 0 ∧
      (∀ k, 0 ≤ (braceScan (content.take k) (0, false)).1) ∧
      l = content ++ '}' :: rest) ∧
    ((∃ content rest, group_content l = .ok content rest) ∨
      group_content l = .err .endOfInput) := by
  constructor
  · intro content rest h
    have h2 : group_content_core l false 0 = some (content, rest) := by
      unfold group_content at h
      cases hg : group_content_core l false 0 with
      | none => rw [hg] at h; exact absurd h (by simp)
      | some p =>
        rw [hg] at h
        rcases p with ⟨a, b⟩
        simp only [ROut.ok.injEq] at h
        rw [h.1, h.2]
    obtain ⟨hl, hscan, hpref⟩ := group_content_core_spec l false 0 content rest h2
    have hz : ((0 : Nat) : Int) = (0 : Int) := rfl
    rw [hz] at hscan hpref
    exact ⟨by rw [hscan], hpref, hl⟩
  · cases hg : group_content_core l false 0 with
    | none =>
      right
      simp [group_content, hg]
    | some p =>
      left
      exact ⟨p.1, p.2, by simp [group_content, hg]⟩

/-- Witness for C7 at the concrete input `"a{b}c}rest"`: the returned slice
`"a{b}c"` is balanced and the input decomposes as slice ++ `}` ++ rest. -/
theorem group_content_balanced_witness :
    (braceScan ['a', '{', 'b', '}', 'c'] (0, false)).1 = 0 ∧
    (['a', '{', 'b', '}', 'c', '}', 'r'] : List Char) =
      ['a', '{', 'b', '}', 'c'] ++ '}' :: ['r'] := by
  have h := (group_content_balanced ['a', '{', 'b', '}', 'c', '}', 'r']).1
    ['a', '{', 'b', '}', 'c'] ['r'] (by decide)
  exact ⟨h.1, h.2.2⟩

/-! ## Claim C6 (number round-trips)

Statement-side apparatus: canonical digit strings of a natural number in a
given base (most significant digit first), built with explicit fuel so that
the definition reduces in the kernel. -/

/-- Digit character for bases up to 16 with *uppercase* letters (the
hexadecimal lexer only accepts `A`–`F`). -/
def hexDigitChar (d : Nat) : Char :=
  if d < 10 then Nat.digitChar d else Char.ofNat (55 + d)

/-- Digit string of `n` in base `b`, most significant first; `fuel` bounds
the recursion depth (any `fuel > n` is enough). -/
def baseDigitsAux (b : Nat) (tc : Nat → Char) : Nat → Nat → List Char
  | _, 0 => []
  | n, fuel + 1 =>
    if n < b then [tc n]
    else baseDigitsAux b tc (n / b) fuel ++ [tc (n % b)]

/-- The decimal digit string of `n`. -/
def decDigits (n : Nat) : List Char := baseDigitsAux 10 Nat.digitChar n (n + 1)

/-- The octal digit string of `n`. -/
def octDigits (n : Nat) : List Char := baseDigitsAux 8 Nat.digitChar n (n + 1)

/-- The hexadecimal digit string of `n`, uppercase. -/
def hexDigits (n : Nat) : List Char := baseDigitsAux 16 hexDigitChar n (n + 1)

/-- Value accumulated by the digit-run closures over a list of characters
(wrapping at `2 ^ 64` like the Rust `usize`). -/
def evalNum (b : Nat) (dv : Char → Nat) : List Char → Nat → Nat
  | [], acc => acc
  | c :: cs, acc => evalNum b dv cs ((acc * b + dv c) % 2 ^ 64)

theorem takeNum_all (p : Char → Bool) (b : Nat) (dv : Char → Nat)
    (ds : List Char) : ∀ acc, ds.all p = true →
    takeNum p b dv ds acc = (evalNum b dv ds acc, []) := by
  induction ds with
  | nil => intro acc _; rfl
  | cons c t ih =>
    intro acc h
    rw [List.all_cons, Bool.and_eq_true] at h
    simp [takeNum, evalNum, h.1, ih _ h.2]

theorem evalNum_append (b : Nat) (dv : Char → Nat) (xs ys : List Char) :
    ∀ acc, evalNum b dv (xs ++ ys) acc = evalNum b dv ys (evalNum b dv xs acc) := by
  induction xs with
  | nil => intro acc; rfl
  | cons c t ih => intro acc; simp [evalNum, ih]

theorem baseDigitsAux_all (b : Nat) (tc : Nat → Char) (p : Char → Bool)
    (hp : ∀ d, d < b → p (tc d) = true) (hb : 2 ≤ b) :
    ∀ fuel n, n < fuel → (baseDigitsAux b tc n fuel).all p = true := by
  intro fuel
  induction fuel with
  | zero => intro n hn; omega
  | succ f ih =>
    intro n hn
    rw [baseDigitsAux]
    split
    · next h => simp [hp n h]
    · next h =>
      have hdiv : n / b < f := by
        have h1 : n / b < n := Nat.div_lt_self (by omega) hb
        omega
      simp [List.all_append, ih (n / b) hdiv, hp (n % b) (Nat.mod_lt n (by omega))]

theorem baseDigitsAux_ne_nil (b : Nat) (tc : Nat → Char) :
    ∀ fuel n, n < fuel → baseDigitsAux b tc n fuel ≠ [] := by
  intro fuel
  induction fuel with
  | zero => intro n hn; omega
  | succ f ih =>
    intro n hn
    rw [baseDigitsAux]
    split
    · simp
    · simp

theorem evalNum_baseDigitsAux (b : Nat) (tc : Nat → Char) (dv : Char → Nat)
    (hb : 2 ≤ b) (hdv : ∀ d, d < b → dv (tc d) = d) :
    ∀ fuel n acc, n < fuel →
      acc * b ^ (baseDigitsAux b tc n fuel).length + n < 2 ^ 64 →
      evalNum b dv (baseDigitsAux b tc n fuel) acc =
        acc * b ^ (baseDigitsAux b tc n fuel).length + n := by
  intro fuel
  induction fuel with
  | zero => intro n acc hn; omega
  | succ f ih =>
    intro n acc hn hbound
    rw [baseDigitsAux] at hbound ⊢
    by_cases h : n < b
    · rw [if_pos h] at hbound ⊢
      simp only [evalNum, hdv n h, List.length_cons, List.length_nil, pow_one,
        zero_add] at hbound ⊢
      exact Nat.mod_eq_of_lt hbound
    · rw [if_neg h] at hbound ⊢
      have hdiv : n / b < f := by
        have h1 : n / b < n := Nat.div_lt_self (by omega) hb
        omega
      rw [evalNum_append]
      set D := baseDigitsAux b tc (n / b) f with hD
      have hlen : (D ++ [tc (n % b)]).length = D.length + 1 := by simp
      rw [hlen] at hbound ⊢
      have hpow : b ^ (D.length + 1) = b ^ D.length * b := pow_succ b D.length
      have hdm : n / b * b + n % b = n := by
        have h0 := Nat.div_add_mod n b
        rw [Nat.mul_comm b (n / b)] at h0
        exact h0
      have hmod : n % b < b := Nat.mod_lt n (by omega)
      -- bound for the recursive call
      have hXa : acc * (b ^ D.length * b) = acc * b ^ D.length * b := by ring
      rw [hpow, hXa] at hbound
      have hmul : (acc * b ^ D.length + n / b) * b =
          acc * b ^ D.length * b + n / b * b := by ring
      have hmono : acc * b ^ D.length + n / b ≤ (acc * b ^ D.length + n / b) * b :=
        Nat.le_mul_of_pos_right _ (by omega)
      have hb1 : acc * b ^ D.length + n / b < 2 ^ 64 := by
        rw [hmul] at hmono
        omega
      rw [ih (n / b) acc hdiv hb1]
      simp only [evalNum, hdv (n % b) hmod]
      have heq : (acc * b ^ D.length + n / b) * b + n % b =
          acc * b ^ D.length * b + n := by
        rw [hmul]
        omega
      rw [heq, Nat.mod_eq_of_lt (by omega), hpow, hXa]

/-! Digit-character facts, decided by finite enumeration. -/

theorem decDigitChar_facts :
    ∀ d, d < 10 → asciiDigit (Nat.digitChar d) = true ∧
      decVal (Nat.digitChar d) = d := by decide

theorem hexDigitChar_facts :
    ∀ d, d < 16 → hexPred (hexDigitChar d) = true ∧
      hexVal (hexDigitChar d) = d := by decide

/-- A full digit-string is consumed by its lexer closure and evaluates to the
number itself (for `n < 2 ^ 64`). -/
theorem takeNum_digits (p : Char → Bool) (b : Nat) (tc : Nat → Char)
    (dv : Char → Nat) (hb : 2 ≤ b)
    (hd : ∀ d, d < b → p (tc d) = true ∧ dv (tc d) = d)
    (n : Nat) (hn : n < 2 ^ 64) :
    takeNum p b dv (baseDigitsAux b tc n (n + 1)) 0 = (n, []) := by
  rw [takeNum_all p b dv _ 0
    (baseDigitsAux_all b tc p (fun d h => (hd d h).1) hb (n + 1) n (by omega))]
  have he := evalNum_baseDigitsAux b tc dv hb (fun d h => (hd d h).2) (n + 1) n 0
    (by omega) (by simpa using hn)
  simp only [zero_mul, zero_add] at he
  rw [he]

theorem decimal_decDigits (n : Nat) (hn : n < 2 ^ 64) :
    decimal (decDigits n) = some (n, []) := by
  have h := takeNum_digits asciiDigit 10 Nat.digitChar decVal (by omega)
    decDigitChar_facts n hn
  simp [decimal, decDigits, h, one_optional_space]

theorem octal_octDigits (n : Nat) (hn : n < 2 ^ 64) :
    octal (octDigits n) = some (n, []) := by
  have h := takeNum_digits asciiDigit 8 Nat.digitChar decVal (by omega)
    (fun d hd => decDigitChar_facts d (by omega)) n hn
  simp [octal, octDigits, h, one_optional_space]

theorem hexadecimal_hexDigits (n : Nat) (hn : n < 2 ^ 64) :
    hexadecimal (hexDigits n) = some (n, []) := by
  have h := takeNum_digits hexPred 16 hexDigitChar hexVal (by omega)
    hexDigitChar_facts n hn
  simp [hexadecimal, hexDigits, h, one_optional_space]

theorem signs_not_sign_head (c : Char) (t : List Char)
    (hm : c ≠ '-') (hp : c ≠ '+') (hw : rustIsWhitespace c = false) :
    signs (c :: t) = (1, c :: t) := by
  simp [signs, trimStart, List.dropWhile_cons, hw, stripSigns, hm, hp]

theorem signs_minus_digit_head (d : Char) (t : List Char)
    (hd : asciiDigit d = true) :
    signs ('-' :: d :: t) = (-1, d :: t) := by
  have hw := asciiDigit_not_ws hd
  have hm := asciiDigit_ne_minus hd
  have hp := asciiDigit_ne_plus hd
  have hwm : rustIsWhitespace '-' = false := by decide
  simp [signs, trimStart, List.dropWhile_cons, hwm, stripSigns, hm, hp, hw]

theorem decDigits_head (n : Nat) :
    ∃ d ds, decDigits n = d :: ds ∧ asciiDigit d = true := by
  have hne : decDigits n ≠ [] :=
    baseDigitsAux_ne_nil 10 Nat.digitChar (n + 1) n (by omega)
  have hall : (decDigits n).all asciiDigit = true :=
    baseDigitsAux_all 10 Nat.digitChar asciiDigit
      (fun d h => (decDigitChar_facts d h).1) (by omega) (n + 1) n (by omega)
  cases hh : decDigits n with
  | nil => exact absurd hh hne
  | cons d ds =>
    rw [hh, List.all_cons, Bool.and_eq_true] at hall
    exact ⟨d, ds, rfl, hall.1⟩

/-- Claim C6 as stated is false for the backtick form at `x = '\'`: the
backslash after the backtick is consumed as the optional escape prefix, so
`` integer("`\") `` fails with `EndOfInput` instead of returning the code
point 92 of the ASCII character `\`. -/
theorem integer_backtick_counterexample :
    integer ['`', '\\'] = .err .endOfInput ∧ ('\\').toNat = 92 := by
  refine ⟨by decide, by decide⟩

/-- Claim C6 amended: for every `n < 2 ^ 31`, `decimal` on the decimal digit
string of `n` returns `n`; `integer` on `-` followed by that string returns
`-n`; `integer` on `'` followed by the octal digit string of `n` returns `n`
(the base-8 value); `integer` on `"` followed by the uppercase hexadecimal
digit string of `n` returns `n` (the base-16 value); and `integer` on a
backtick followed by an ASCII character `x` returns the code point of `x`,
where the unescaped form requires `x ≠ '\'` (a backslash right after the
backtick is consumed as the optional escape prefix), while the
backslash-escaped form works for every ASCII `x`. -/
theorem integer_number_roundtrip :
    ∀ n : Nat, n < 2 ^ 31 →
      decimal (decDigits n) = some (n, []) ∧
      integer ('-' :: decDigits n) = .ok (-(n : Int)) [] ∧
      integer (Char.ofNat 39 :: octDigits n) = .ok ((n : Int)) [] ∧
      integer (Char.ofNat 34 :: hexDigits n) = .ok ((n : Int)) [] ∧
      (∀ x : Char, x.toNat < 128 →
        (x ≠ '\\' → integer ['`', x] = .ok ((x.toNat : Int)) []) ∧
        integer ['`', '\\', x] = .ok ((x.toNat : Int)) []) := by
  intro n hn
  have hn64 : n < 2 ^ 64 := by omega
  have hdec := decimal_decDigits n hn64
  have htoI : toIsize n = (n : Int) := by
    rw [toIsize, if_pos (by omega)]
  refine ⟨hdec, ?_, ?_, ?_, ?_⟩
  · obtain ⟨d, ds, hds, hd⟩ := decDigits_head n
    rw [hds] at hdec
    have h128 : ¬ 128 ≤ d.toNat := by
      have := asciiDigit_toNat hd
      omega
    have tr : integer ('-' :: decDigits n) =
        integerAfterSigns (signs ('-' :: decDigits n)).1
          (signs ('-' :: decDigits n)).2 := rfl
    rw [tr, hds, signs_minus_digit_head d ds hd]
    simp only [integerAfterSigns, if_neg h128, if_pos hd, hdec, htoI]
    simp [mul_neg_one]
  · have hoct := octal_octDigits n hn64
    have tr : integer (Char.ofNat 39 :: octDigits n) =
        integerAfterSigns (signs (Char.ofNat 39 :: octDigits n)).1
          (signs (Char.ofNat 39 :: octDigits n)).2 := rfl
    rw [tr, signs_not_sign_head (Char.ofNat 39) _ (by decide) (by decide) (by decide)]
    simp only [integerAfterSigns]
    rw [if_neg (by decide), if_neg (by decide), if_neg (by decide),
      if_pos (by decide), hoct]
    simp [htoI]
  · have hhex := hexadecimal_hexDigits n hn64
    have tr : integer (Char.ofNat 34 :: hexDigits n) =
        integerAfterSigns (signs (Char.ofNat 34 :: hexDigits n)).1
          (signs (Char.ofNat 34 :: hexDigits n)).2 := rfl
    rw [tr, signs_not_sign_head (Char.ofNat 34) _ (by decide) (by decide) (by decide)]
    simp only [integerAfterSigns]
    rw [if_neg (by decide), if_neg (by decide), if_neg (by decide),
      if_neg (by decide), if_pos (by decide), hhex]
    simp [htoI]
  · intro x hx
    have htx : toIsize x.toNat = (x.toNat : Int) := by
      rw [toIsize, if_pos (by omega)]
    have c1 : ¬ 128 ≤ ('`').toNat := by decide
    have c2 : asciiDigit '`' = false := by decide
    constructor
    · intro hxb
      have tr : integer ['`', x] =
          integerAfterSigns (signs ['`', x]).1 (signs ['`', x]).2 := rfl
      rw [tr, signs_not_sign_head '`' [x] (by decide) (by decide) (by decide)]
      simp [integerAfterSigns, c1, c2, hxb, hx, htx]
    · have tr : integer ['`', '\\', x] =
          integerAfterSigns (signs ['`', '\\', x]).1 (signs ['`', '\\', x]).2 := rfl
      rw [tr, signs_not_sign_head '`' ['\\', x] (by decide) (by decide) (by decide)]
      simp [integerAfterSigns, c1, c2, hx, htx]

/-- Witness for the amended C6 theorem at `n = 2026` and `x = 'a'`. -/
theorem integer_number_roundtrip_witness :
    decimal ['2', '0', '2', '6'] = some (2026, []) ∧
    integer ['-', '2', '0', '2', '6'] = .ok (-2026) [] ∧
    integer ['`', 'a'] = .ok 97 [] := by
  have h := integer_number_roundtrip 2026 (by norm_num)
  have hd : decDigits 2026 = ['2', '0', '2', '6'] := by decide
  refine ⟨?_, ?_, ?_⟩
  · have h1 := h.1
    rw [hd] at h1
    exact h1
  · have h2 := h.2.1
    rw [hd] at h2
    exact h2.trans (by decide)
  · exact ((h.2.2.2.2 'a' (by decide)).1 (by decide)).trans (by decide)

/-! ## Claim C1 (balanced outer frame)

The instruction stack of a freshly constructed parser ends in the `EndGroup`
event, and no step of the engine ever removes or reaches below it except the
final one, which yields it and leaves the stack empty.  Hence any complete
run ends with `Ok(EndGroup)`, and the very first step always yields the
seeded `Ok(BeginGroup)`. -/

/-- The instruction stack ends in the pending `EndGroup` event. -/
def FrameInv (st : ParserState) : Prop :=
  ∃ u, st.instructionStack = u ++ [Instruction.event Event.endGroup]

/-- Step equation of `nextEvent` on a non-empty substring, holding by
definitional unfolding. -/
theorem nextEvent_char (n : Nat) (c : Char) (cs : List Char) (pop : Bool)
    (rest : List Instruction) (gs : List GroupNesting) :
    nextEvent (n + 1) ⟨.substring (c :: cs) pop :: rest, gs⟩ =
      (if c = '.' ∨ asciiDigit c then
        .item (.ok (.content (.number
            ((c :: cs).take (1 + (cs.takeWhile (fun d => asciiDigit d || d = '.')).length))
            (fontOf gs))))
          ⟨.substring
            ((c :: cs).drop (1 + (cs.takeWhile (fun d => asciiDigit d || d = '.')).length))
            pop :: rest, gs⟩
      else if c = '\\' then
        match rhs_control_sequence cs with
        | none => .fail
        | some (name, r) =>
          match handlePrimitive name r gs with
          | none => .fail
          | some (res, push, cur', gs') =>
            let st2 : ParserState := ⟨push ++ .substring cur' pop :: rest, gs'⟩
            match res with
            | some rr => .item rr st2
            | none => nextEvent n st2
      else
        match handleCharToken c cs gs with
        | (res, cur', gs') =>
          let st2 : ParserState := ⟨.substring cur' pop :: rest, gs'⟩
          match res with
          | some rr => .item rr st2
          | none => nextEvent n st2) := rfl

theorem nextEvent_frame : ∀ (f : Nat) (st : ParserState), FrameInv st →
    nextEvent f st = .fail ∨
    ∃ r st', nextEvent f st = .item r st' ∧
      (FrameInv st' ∨ (st'.instructionStack = [] ∧ r = .ok .endGroup)) := by
  intro f
  induction f with
  | zero => intro st _; left; rfl
  | succ n ih =>
    intro st hinv
    obtain ⟨u, hu⟩ := hinv
    obtain ⟨stack, gs⟩ := st
    simp only at hu
    subst hu
    cases u with
    | nil =>
      right
      exact ⟨_, _, rfl, Or.inr ⟨rfl, rfl⟩⟩
    | cons i u' =>
      rw [List.cons_append]
      cases i with
      | event e =>
        right
        refine ⟨_, _, rfl, Or.inl ?_⟩
        exact ⟨u', rfl⟩
      | substring content pop =>
        cases content with
        | nil =>
          exact ih ⟨u' ++ [.event .endGroup], gs⟩ ⟨u', rfl⟩
        | cons c cs =>
          rw [nextEvent_char]
          split_ifs with hdig hbs
          · right
            refine ⟨_, _, rfl, ?_⟩
            exact Or.inl
              ⟨.substring
                ((c :: cs).drop (1 + (cs.takeWhile (fun d => asciiDigit d || d = '.')).length))
                pop :: u', by simp⟩
          · rcases hx : rhs_control_sequence cs with _ | ⟨name, r⟩
            · left
              rfl
            · rcases hp : handlePrimitive name r gs with _ | ⟨res, push, cur', gs'⟩
              · simp only [hp]
                exact Or.inl trivial
              · rcases res with _ | rr
                · simp only [hp]
                  exact ih ⟨push ++ .substring cur' pop :: (u' ++ [.event .endGroup]), gs'⟩
                    ⟨push ++ .substring cur' pop :: u', by simp⟩
                · simp only [hp]
                  right
                  refine ⟨rr, _, rfl, ?_⟩
                  exact Or.inl ⟨push ++ .substring cur' pop :: u', by simp⟩
          · rcases hc : handleCharToken c cs gs with ⟨res, cur', gs'⟩
            rcases res with _ | rr
            · simp only [hc]
              exact ih ⟨.substring cur' pop :: (u' ++ [.event .endGroup]), gs'⟩
                ⟨.substring cur' pop :: u', by simp⟩
            · simp only [hc]
              right
              refine ⟨rr, _, rfl, ?_⟩
              exact Or.inl ⟨.substring cur' pop :: u', by simp⟩

theorem run_last_endGroup : ∀ (n : Nat) (st : ParserState), FrameInv st →
    ∀ evts stf, run n st = some (evts, stf) →
    evts ≠ [] ∧ evts.getLast? = some (Except.ok Event.endGroup) := by
  intro n
  induction n with
  | zero => intro st _ evts stf h; exact absurd h (by simp [run])
  | succ m ih =>
    intro st hinv evts stf h
    rw [run] at h
    rcases nextEvent_frame (m + 1) st hinv with hf | ⟨r, st', hstep, hdisj⟩
    · rw [hf] at h
      replace h : (none : Option (List (Except ParseError Event) × ParserState)) =
          some (evts, stf) := h
      exact absurd h (by simp)
    · rw [hstep] at h
      replace h : Option.map (fun p => (r :: p.1, p.2)) (run m st') =
          some (evts, stf) := h
      rcases hr : run m st' with _ | ⟨l, stf'⟩
      · rw [hr] at h
        exact absurd h (by simp)
      · rw [hr] at h
        simp only [Option.map_some', Option.some.injEq, Prod.mk.injEq] at h
        obtain ⟨hevts, hstf⟩ := h
        rcases hdisj with hinv' | ⟨hemp, hr2⟩
        · obtain ⟨hl, hlast⟩ := ih st' hinv' l stf' hr
          obtain ⟨a, l', hl'⟩ := List.exists_cons_of_ne_nil hl
          subst hl'
          constructor
          · rw [← hevts]
            simp
          · rw [← hevts, List.getLast?_cons_cons]
            exact hlast
        · have hl0 : l = [] := by
            cases m with
            | zero => exact absurd hr (by simp [run])
            | succ k =>
              obtain ⟨s2, g2⟩ := st'
              simp only at hemp
              subst hemp
              rw [run] at hr
              have hne : nextEvent (k + 1) (⟨[], g2⟩ : ParserState) = .done ⟨[], g2⟩ := rfl
              rw [hne] at hr
              replace hr : some (([] : List (Except ParseError Event)),
                  (⟨[], g2⟩ : ParserState)) = some (l, stf') := hr
              simp only [Option.some.injEq, Prod.mk.injEq] at hr
              exact hr.1.symm
          subst hl0
          constructor
          · rw [← hevts]
            simp
          · rw [← hevts, hr2]
            rfl

theorem run_head_beginGroup : ∀ (n : Nat) (s : List Char)
    (evts : List (Except ParseError Event)) (stf : ParserState),
    run n (Parser.new s) = some (evts, stf) →
    evts.head? = some (Except.ok Event.beginGroup) := by
  intro n s evts stf h
  cases n with
  | zero => exact absurd h (by simp [run])
  | succ m =>
    rw [run] at h
    have h1 : nextEvent (m + 1) (Parser.new s) =
        .item (.ok .beginGroup)
          ⟨[.substring s true, .event .endGroup], [⟨none, .internal⟩]⟩ := rfl
    rw [h1] at h
    replace h : Option.map (fun p => ((Except.ok Event.beginGroup : Except ParseError Event) :: p.1, p.2))
        (run m ⟨[.substring s true, .event .endGroup], [⟨none, .internal⟩]⟩) =
        some (evts, stf) := h
    rcases hr : run m ⟨[.substring s true, .event .endGroup], [⟨none, .internal⟩]⟩ with
      _ | ⟨l, stf'⟩
    · rw [hr] at h
      exact absurd h (by simp)
    · rw [hr] at h
      simp only [Option.map_some', Option.some.injEq, Prod.mk.injEq] at h
      rw [← h.1]
      rfl

/-- Claim C1: for every input and fuel, if the parser runs to completion
(the iterator reaches `None` without panicking), the first item yielded is
`Ok(BeginGroup)` and the last is `Ok(EndGroup)`; and on the empty input the
complete sequence is exactly `[Ok(BeginGroup), Ok(EndGroup)]`, with no
error. -/
theorem parser_outer_frame :
    (∀ (s : List Char) (n : Nat) (evts : List (Except ParseError Event))
      (stf : ParserState),
      run n (Parser.new s) = some (evts, stf) →
      evts.head? = some (Except.ok Event.beginGroup) ∧
      evts.getLast? = some (Except.ok Event.endGroup)) ∧
    ∃ stf, run 3 (Parser.new []) =
      some ([Except.ok Event.beginGroup, Except.ok Event.endGroup], stf) := by
  constructor
  · intro s n evts stf h
    have hinv : FrameInv (Parser.new s) :=
      ⟨[.event .beginGroup, .substring s true], rfl⟩
    exact ⟨run_head_beginGroup n s evts stf h,
      (run_last_endGroup n (Parser.new s) hinv evts stf h).2⟩
  · exact ⟨⟨[], [⟨none, .internal⟩]⟩, by decide⟩

/-- Witness for C1 at the concrete input `"a"` with fuel 10: the produced
sequence `[Ok(BeginGroup), Ok(Identifier 'a'), Ok(EndGroup)]` is framed by
the outer group events. -/
theorem parser_outer_frame_witness :
    ([Except.ok Event.beginGroup,
      Except.ok (Event.content (ContentE.identifierChar 'a' none)),
      Except.ok Event.endGroup] : List (Except ParseError Event)).head? =
        some (Except.ok Event.beginGroup) ∧
    ([Except.ok Event.beginGroup,
      Except.ok (Event.content (ContentE.identifierChar 'a' none)),
      Except.ok Event.endGroup] : List (Except ParseError Event)).getLast? =
        some (Except.ok Event.endGroup) :=
  parser_outer_frame.1 ['a'] 10 _ ⟨[], [⟨none, .internal⟩]⟩ (by decide)

end Plm
